import Mathlib
/-
Verification of the RAG core of the PEm09 assistant.
The Python sources are shallowly embedded over `List Char` (Python `str`)
and explicit state records.  Embedded modules:
  - src/config.py                     (configuration constants)
  - src/rag/index_simple.py           (SimpleDocumentIndex: chunking,
                                       persistence, keyword retrieval)
  - src/rag/query.py                  (query orchestration with fallback)
-/

/-! ### src/config.py -/

-- RAG_CHUNK_SIZE = 1500
def RAG_CHUNK_SIZE : Nat := 1500

-- RAG_CHUNK_OVERLAP = 300
def RAG_CHUNK_OVERLAP : Nat := 300

-- RAG_TOP_K = 5
def RAG_TOP_K : Nat := 5

-- MAX_HISTORY_LENGTH = 10
def MAX_HISTORY_LENGTH : Nat := 10

/-! ### Python string primitives over `List Char` -/

/-- Python `\s` / `str.isspace` for a single character. -/
def isSpaceChar (c : Char) : Bool := c.isWhitespace

/-- Membership in the sentence-terminator class `[.!?]` of the split regex. -/
def isSentenceEnd (c : Char) : Bool := c = '.' || c = '!' || c = '?'

/-- Python `str.strip()`: remove leading and trailing whitespace. -/
def pyStrip (l : List Char) : List Char :=
  ((l.dropWhile isSpaceChar).reverse.dropWhile isSpaceChar).reverse

/-- Python slice `l[-n:]` for `n ≥ 1`: the trailing `n` characters. -/
def takeLast (n : Nat) (l : List Char) : List Char := l.drop (l.length - n)

/-! ### SimpleDocumentIndex._split_into_chunks (src/rag/index_simple.py:108-140)

`re.split(r'(?<=[.!?])\s+', text)`: the text is cut at every maximal
whitespace run whose preceding character is a sentence terminator, the
whitespace itself being discarded.  `prevEnd` records whether the character
just before the current position is in `[.!?]` (false at the start of the
text and right after a consumed whitespace run). -/

def splitSentencesAux (prevEnd : Bool) : List Char → List Char → List (List Char)
  | [], acc => [acc.reverse]
  | c :: rest, acc =>
    if isSpaceChar c && prevEnd then
      acc.reverse :: splitSentencesAux false (rest.dropWhile isSpaceChar) []
    else
      splitSentencesAux (isSentenceEnd c) rest (c :: acc)
termination_by s _ => s.length
decreasing_by
  · have := (List.dropWhile_sublist (l := rest) (p := isSpaceChar)).length_le
    simp
    omega
  · simp

/-- The sentence list produced by the terminator-whitespace split regex. -/
def splitSentences (text : List Char) : List (List Char) :=
  splitSentencesAux false text []

/-- The sentence-accumulation loop of `_split_into_chunks`, with the
current buffer passed explicitly (initially the empty string). -/
def splitChunksLoop : List (List Char) → List Char → List (List Char)
  | [], current => if pyStrip current = [] then [] else [pyStrip current]
  | s :: rest, current =>
    if current.length + s.length ≤ RAG_CHUNK_SIZE then
      splitChunksLoop rest (current ++ ' ' :: s)
    else
      (if pyStrip current = [] then [] else [pyStrip current]) ++
        splitChunksLoop rest
          (if RAG_CHUNK_OVERLAP < current.length then
            takeLast RAG_CHUNK_OVERLAP current ++ ' ' :: s
          else s)

/-- Embedding of `SimpleDocumentIndex._split_into_chunks`. -/
def split_into_chunks (text : List Char) : List (List Char) :=
  splitChunksLoop (splitSentences text) []

/-! ### The C3 counterexample text: two sentences of lengths 1500 and 1400,
both within the chunk size, whose second chunk nevertheless exceeds it -/

def s1cex : List Char := List.replicate 1499 'a' ++ ['.']

def s2cex : List Char := List.replicate 1400 'b'

def cexText : List Char := s1cex ++ ' ' :: s2cex

def chunk2cex : List Char := List.replicate 299 'a' ++ '.' :: ' ' :: s2cex

/-! ### SimpleDocumentIndex.keyword_retrieve (src/rag/index_simple.py:197-250) -/

/-- Python `\w` (a word character) for the token regex `\w+`. -/
def isWordChar (c : Char) : Bool := c.isAlphanum || c = '_'

/-- Python `str.lower()`. -/
def pyLower (l : List Char) : List Char := l.map Char.toLower

/-- Python word-token extraction: the maximal runs of word characters, in order.
The accumulator holds the current run, reversed. -/
def findWordsAux : List Char → List Char → List (List Char)
  | [], acc => if acc = [] then [] else [acc.reverse]
  | c :: rest, acc =>
    if isWordChar c then findWordsAux rest (c :: acc)
    else (if acc = [] then [] else [acc.reverse]) ++ findWordsAux rest []

def findWords (l : List Char) : List (List Char) := findWordsAux l []

/-- The fixed bilingual stop-word set of `keyword_retrieve`. -/
def stop_words : List (List Char) :=
  ["что".data, "как".data, "где".data, "когда".data, "кто".data, "какой".data,
   "какая".data, "какие".data, "это".data, "для".data, "или".data, "и".data,
   "в".data, "на".data, "с".data, "по".data, "из".data, "у".data,
   "the".data, "a".data, "an".data, "is".data, "are".data, "was".data,
   "were".data, "be".data, "been".data]

/-- The filtered token set `q_words`: the token set of the question (tokens of length > 2
that are not stop words), with Python set semantics. -/
def q_words (question : List Char) : Finset (List Char) :=
  (findWords (pyLower question)).toFinset.filter
    (fun w => 2 < w.length ∧ w ∉ stop_words)

/-- The (unfiltered) token set `c_words` of a chunk. -/
def c_words (chunk : List Char) : Finset (List Char) :=
  (findWords (pyLower chunk)).toFinset

/-- Python substring containment `pat in hay`. -/
def containsSubstr (pat : List Char) : List Char → Bool
  | [] => pat.isPrefixOf []
  | c :: t => pat.isPrefixOf (c :: t) || containsSubstr pat t

/-- The score `keyword_retrieve` assigns to one chunk: the number of shared
filtered tokens, plus 10 when the lowercased question occurs as a substring
of the lowercased chunk. -/
def chunk_score (question chunk : List Char) : Nat :=
  (q_words question ∩ c_words chunk).card +
    (if containsSubstr (pyLower question) (pyLower chunk) = true then 10 else 0)

/-- The `scored` list: `(score, chunk)` for each chunk with positive score,
in insertion (index) order. -/
def scoredChunks (question : List Char) (chunks : List (List Char)) :
    List (Nat × List Char) :=
  (chunks.map (fun c => (chunk_score question c, c))).filter (fun p => 0 < p.1)

/-- The comparison used by `scored.sort(key=lambda x: x[0], reverse=True)`:
score of the left entry at least the score of the right entry. -/
def scoreGe (p q : Nat × List Char) : Prop := q.1 ≤ p.1

instance : DecidableRel scoreGe := fun p q => Nat.decLe q.1 p.1

instance : IsTotal (Nat × List Char) scoreGe := ⟨fun a b => Nat.le_total b.1 a.1⟩

instance : IsTrans (Nat × List Char) scoreGe := ⟨fun _ _ _ h1 h2 => le_trans h2 h1⟩

/-- Python `list.sort` is a stable sort; with `reverse=True` it still keeps
equal-keyed elements in their original relative order.  A stable descending
sort is embedded as insertion sort under `scoreGe`. -/
def rankedScored (question : List Char) (chunks : List (List Char)) :
    List (Nat × List Char) :=
  List.insertionSort scoreGe (scoredChunks question chunks)

/-- Embedding of `SimpleDocumentIndex.keyword_retrieve` over the chunk list. -/
def keyword_retrieve (question : List Char) (top_k : Nat)
    (chunks : List (List Char)) : List (List Char) :=
  if q_words question = ∅ then []
  else ((rankedScored question chunks).take top_k).map Prod.snd

/-! ### Index state and persistence (src/rag/index_simple.py)

File contents are modelled explicitly: `none` is a missing file,
`some (Except.error ())` a file whose read (or parse) raises, and
`some (Except.ok v)` a successful read. -/

/-- One metadata entry `{'source': name}`. -/
structure ChunkMeta where
  source : String
deriving DecidableEq

instance exceptDecEq {α : Type} [DecidableEq α] : DecidableEq (Except Unit α) :=
  fun a b =>
    match a, b with
    | Except.ok x, Except.ok y =>
      if h : x = y then isTrue (by rw [h])
      else isFalse (fun hh => by cases hh; exact h rfl)
    | Except.error x, Except.error y => isTrue (by cases x; cases y; rfl)
    | Except.ok _, Except.error _ => isFalse (fun h => Except.noConfusion h)
    | Except.error _, Except.ok _ => isFalse (fun h => Except.noConfusion h)

/-- The in-memory state `self.chunks` / `self.metadata`. -/
structure IndexState where
  chunks : List (List Char)
  metadata : List ChunkMeta
deriving DecidableEq

/-- The two persisted artifacts `chunks.txt` and `metadata.txt` (the latter
already decoded from JSON when well-formed). -/
structure DiskState where
  chunksFile : Option (Except Unit (List Char))
  metadataFile : Option (Except Unit (List ChunkMeta))
deriving DecidableEq

/-- The combined state an index object can read and write. -/
structure SystemState where
  index : IndexState
  disk : DiskState
deriving DecidableEq

/-- The separator line token `###CHUNK_SEPARATOR###`. -/
def SEP : List Char := "###CHUNK_SEPARATOR###".data

/-- What `_save_index` appends after each chunk: `"\n###CHUNK_SEPARATOR###\n"`. -/
def sepBlock : List Char := '\n' :: (SEP ++ ['\n'])

/-- The byte content `_save_index` writes to `chunks.txt`. -/
def serializeChunks (chunks : List (List Char)) : List Char :=
  (chunks.map (fun c => c ++ sepBlock)).flatten

/-- Python `content.split("###CHUNK_SEPARATOR###")`: cut at each leftmost,
non-overlapping occurrence of `SEP`, dropping the separator itself.  The
accumulator holds the current piece, reversed. -/
def splitSepAux : List Char → List Char → List (List Char)
  | [], acc => [acc.reverse]
  | c :: rest, acc =>
    if SEP.isPrefixOf (c :: rest) then
      acc.reverse :: splitSepAux (List.drop SEP.length (c :: rest)) []
    else
      splitSepAux rest (c :: acc)
termination_by s _ => s.length
decreasing_by
  · simp [SEP]
    omega
  · simp

/-- The chunk-parsing comprehension of `_load_index`: split on the separator, strip each piece, keep the non-empty ones. -/
def parseChunks (content : List Char) : List (List Char) :=
  ((splitSepAux content []).map pyStrip).filter (fun c => !c.isEmpty)

/-- Embedding of `SimpleDocumentIndex._save_index`: rewrites both artifacts from memory. -/
def save_index (st : IndexState) : DiskState :=
  { chunksFile := some (Except.ok (serializeChunks st.chunks)),
    metadataFile := some (Except.ok st.metadata) }

/-- Embedding of `SimpleDocumentIndex._load_index`.  A missing chunk file returns 0 with
the memory untouched; a raising read is caught by the `except` and also
returns 0; after a successful chunk read, a missing metadata sidecar defaults
every source to "Unknown", and a raising metadata read is caught only after
`self.chunks` has already been reassigned. -/
def load_index (disk : DiskState) (st : IndexState) : Nat × IndexState :=
  match disk.chunksFile with
  | none => (0, st)
  | some (Except.error _) => (0, st)
  | some (Except.ok content) =>
    let cs := parseChunks content
    match disk.metadataFile with
    | none =>
      (cs.length, { chunks := cs, metadata := List.replicate cs.length ⟨"Unknown"⟩ })
    | some (Except.ok ms) => (cs.length, { chunks := cs, metadata := ms })
    | some (Except.error _) => (0, { st with chunks := cs })

/-- Embedding of `SimpleDocumentIndex.clear`: reassigns the two in-memory lists; the
method performs no file operation, so the disk half is untouched. -/
def clearSystem (s : SystemState) : SystemState :=
  { s with index := { chunks := [], metadata := [] } }

/-- Embedding of `SimpleDocumentIndex._process_document`, over the already-extracted text
(`Except.error` models a document whose read/extraction raises, handled by
the per-document `except` that returns `[]`). -/
def process_document (name : String) (text : Except Unit (List Char))
    (st : IndexState) : List (List Char) × IndexState :=
  match text with
  | Except.error _ => ([], st)
  | Except.ok t =>
    let cs := split_into_chunks t
    (cs, { chunks := st.chunks ++ cs,
           metadata := st.metadata ++ cs.map (fun _ => ⟨name⟩) })

/-- One iteration of the ingestion loop of `index_documents_directory`:
process a document and add its chunk count to the running total. -/
def ingestStep (acc : Nat × IndexState) (d : String × Except Unit (List Char)) :
    Nat × IndexState :=
  let (cs, st') := process_document d.1 d.2 acc.2
  (acc.1 + cs.length, st')

/-- Embedding of `SimpleDocumentIndex.index_documents_directory` over the document list
found in the documents directory (name, extracted-text pairs).  When the
persisted chunk file exists and `force_reindex` is false the existing index
is loaded instead; when no documents are found it returns 0; otherwise each
document is processed in order and the index is saved. -/
def index_documents_directory (force_reindex : Bool)
    (docs : List (String × Except Unit (List Char))) (s : SystemState) :
    Nat × SystemState :=
  if s.disk.chunksFile ≠ none ∧ ¬ force_reindex then
    let r := load_index s.disk s.index
    (r.1, { s with index := r.2 })
  else if docs = [] then (0, s)
  else
    let r := docs.foldl ingestStep (0, s.index)
    (r.1, { index := r.2, disk := save_index r.2 })

/-- The chunks freshly computed from one document. -/
def docChunks (d : String × Except Unit (List Char)) : List (List Char) :=
  match d.2 with
  | Except.error _ => []
  | Except.ok t => split_into_chunks t

/-- The chunks freshly computed from a document list. -/
def freshChunks (docs : List (String × Except Unit (List Char))) :
    List (List Char) :=
  (docs.map docChunks).flatten

/-- The index-alignment invariant `len(chunks) == len(metadata)`. -/
def invariant (st : IndexState) : Prop := st.chunks.length = st.metadata.length

/-- The on-disk pair is aligned: whenever the chunk file is readable, the
metadata sidecar is absent or parses to exactly one entry per loaded chunk. -/
def sidecarAligned (disk : DiskState) : Prop :=
  match disk.chunksFile with
  | some (Except.ok content) =>
    match disk.metadataFile with
    | none => True
    | some (Except.ok ms) => ms.length = (parseChunks content).length
    | some (Except.error _) => False
  | _ => True

def c7docs : List (String × Except Unit (List Char)) :=
  [("doc.txt", Except.ok "Hi.".data)]

def c7disk : DiskState := save_index ⟨[['o', 'l', 'd']], [⟨"doc.pdf"⟩]⟩

/-! ### src/rag/query.py: query orchestration with fallback

The external Generator (`ai_client.generate_text_response`) is a parameter
`gen`; `Except.error` models a call that raises (timeout included). -/

structure Message where
  role : String
  content : String
deriving DecidableEq

/-- Python slice `conversation_history[-6:]`. -/
def lastN (n : Nat) (l : List Message) : List Message := l.drop (l.length - n)

/-- The RAG system prompt before its `{context}` placeholder. -/
def ragPromptPre : String :=
  "Ты - технический консультант-эксперт по люкам и дождеприемникам компании \"ЛИТЛИДЕР\".\n\nТВОЯ РОЛЬ:\n- Помогаешь инженерам, проектировщикам, прорабам и снабженцам подбирать продукцию\n- Расшифровываешь технические маркировки типа ТМ(Д400)-2-7-9-60\n- Предоставляешь точные технические характеристики, веса, размеры\n- Объясняешь различия между типами продукции (плавающие/обычные люки, классы нагрузки)\n- Помогаешь с подбором оборудования для конкретных условий эксплуатации\n\nВАЖНЫЕ ПРАВИЛА:\n1. Используй ТОЛЬКО информацию из технического каталога ниже\n2. Для технических характеристик цитируй точные данные (вес, размеры, маркировку)\n3. Если в каталоге нет информации - честно скажи об этом\n4. Всегда указывай артикул/маркировку продукции\n5. Объясняй технические термины понятным языком\n6. Структурируй ответы: характеристики, применение, преимущества\n\nКОНТЕКСТ ИЗ ТЕХНИЧЕСКОГО КАТАЛОГА:\n"

/-- The RAG system prompt after its `{context}` placeholder. -/
def ragPromptPost : String :=
  "\n\nИспользуй этот контекст для точного и профессионального ответа."

/-- The system message of `_fallback_response`. -/
def fallbackSystemContent : String :=
  "Ты - технический консультант по люкам и дождеприемникам компании \"ЛИТЛИДЕР\". \n        \nБаза знаний не содержит информации по этому вопросу.\nЕсли это вопрос о продукции - извинись и попроси пользователя загрузить технический каталог.\nЕсли это общий вопрос - можешь ответить, но предупреди, что ответ не из каталога."

/-- The disclaimer marker `_fallback_response` prepends to the answer. -/
def fallbackPre : String :=
  "⚠️ Технический каталог не содержит информации по этому вопросу.\n\n"

/-- The footer `_fallback_response` appends after the answer. -/
def fallbackPost : String :=
  "\n\n💡 Убедитесь, что файл Litlider_Katalog_VCHSHG_2025.pdf загружен в систему."

/-- The message list `_generate_rag_response` sends: the context-bearing
system message, then (when the history is non-empty) its last 6 entries,
then the current query. -/
def rag_messages (query context : String) (history : List Message) : List Message :=
  ({ role := "system", content := ragPromptPre ++ context ++ ragPromptPost } ::
    (if history = [] then [] else lastN 6 history)) ++
    [{ role := "user", content := query }]

/-- Embedding of `_generate_rag_response`. -/
def generate_rag_response (gen : List Message → Except Unit String)
    (query context : String) (history : List Message) : Except Unit String :=
  gen (rag_messages query context history)

/-- The message list `_fallback_response` sends. -/
def fallback_messages (query : String) (history : List Message) : List Message :=
  ({ role := "system", content := fallbackSystemContent } ::
    (if history = [] then [] else lastN 6 history)) ++
    [{ role := "user", content := query }]

/-- Embedding of `_fallback_response`: one generator call, the disclaimer marker and
footer wrapped around the returned text. -/
def fallback_response (gen : List Message → Except Unit String)
    (query : String) (history : List Message) : Except Unit String :=
  match gen (fallback_messages query history) with
  | Except.error e => Except.error e
  | Except.ok r => Except.ok (fallbackPre ++ r ++ fallbackPost)

/-- The body of the `try` block of `query_knowledge_base` (Yandex branch):
keyword retrieval, the empty-result fallback, and the context-bearing
generation over the joined chunks. -/
def query_primary (gen : List Message → Except Unit String)
    (chunks : List (List Char)) (query : String) (history : List Message) :
    Except Unit String :=
  if keyword_retrieve query.data RAG_TOP_K chunks = [] then
    fallback_response gen query history
  else
    generate_rag_response gen query
      (String.mk (List.intercalate "\n\n".data
        (keyword_retrieve query.data RAG_TOP_K chunks))) history

/-- Embedding of `query_knowledge_base`: the `try` body, with any raised error caught and
degraded to `_fallback_response`. -/
def query_knowledge_base (gen : List Message → Except Unit String)
    (chunks : List (List Char)) (query : String) (history : List Message) :
    Except Unit String :=
  match query_primary gen chunks query history with
  | Except.ok r => Except.ok r
  | Except.error _ => fallback_response gen query history

/-- The constant generator used by the C2 witness. -/
def genOk : List Message → Except Unit String := fun _ => Except.ok "ok"

/-! ### C10: history trimming -/

def c10hist : List Message :=
  (List.range 7).map (fun i => { role := "user", content := toString i })

/-! ### Theorems -/

/-! ### Generic list lemmas used throughout -/

theorem dropWhile_replicate_of_not {p : Char → Bool} {a : Char} (h : p a = false) :
    ∀ n, List.dropWhile p (List.replicate n a) = List.replicate n a := by
  intro n
  cases n with
  | zero => rfl
  | succ m => simp [List.replicate_succ, List.dropWhile_cons, h]

theorem pyStrip_length_le (l : List Char) : (pyStrip l).length ≤ l.length := by
  unfold pyStrip
  have h1 := (List.dropWhile_sublist (l := l) (p := isSpaceChar)).length_le
  have h2 := (List.dropWhile_sublist (l := (l.dropWhile isSpaceChar).reverse)
    (p := isSpaceChar)).length_le
  simp at h2 ⊢
  omega

theorem takeLast_length_of_lt {n : Nat} {l : List Char} (h : n < l.length) :
    (takeLast n l).length = n := by
  unfold takeLast
  simp
  omega

/-! ### Stepping lemmas for the sentence splitter -/

theorem splitSentencesAux_no_space (l : List Char) (h : ∀ c ∈ l, isSpaceChar c = false) :
    ∀ (prevEnd : Bool) (rest acc : List Char),
      splitSentencesAux prevEnd (l ++ rest) acc =
        splitSentencesAux (l.foldl (fun _ c => isSentenceEnd c) prevEnd) rest
          (l.reverse ++ acc) := by
  induction l with
  | nil => intro prevEnd rest acc; simp
  | cons c t ih =>
    intro prevEnd rest acc
    have hc : isSpaceChar c = false := h c (by simp)
    rw [List.cons_append]
    rw [show splitSentencesAux prevEnd (c :: (t ++ rest)) acc =
        splitSentencesAux (isSentenceEnd c) (t ++ rest) (c :: acc) by
      simp only [splitSentencesAux]; rw [hc]; simp]
    rw [ih (fun d hd => h d (by simp [hd])) (isSentenceEnd c) rest (c :: acc)]
    simp

theorem dropWhile_cons_not {p : Char → Bool} {c : Char} (h : p c = false) (l : List Char) :
    List.dropWhile p (c :: l) = c :: l := by
  rw [List.dropWhile_cons, h]; simp

theorem pyStrip_cons_space {c : Char} (hc : isSpaceChar c = true) (l : List Char) :
    pyStrip (c :: l) = pyStrip l := by
  unfold pyStrip
  rw [List.dropWhile_cons, hc]
  simp

theorem pyStrip_eq_self {l : List Char} (h1 : List.dropWhile isSpaceChar l = l)
    (h2 : List.dropWhile isSpaceChar l.reverse = l.reverse) : pyStrip l = l := by
  unfold pyStrip
  rw [h1, h2, List.reverse_reverse]

theorem foldl_sentenceEnd (l : List Char) (b : Bool) (d : Char) :
    (l ++ [d]).foldl (fun _ c => isSentenceEnd c) b = isSentenceEnd d := by
  rw [List.foldl_append, List.foldl_cons, List.foldl_nil]

theorem s1cex_no_space : ∀ c ∈ s1cex, isSpaceChar c = false := by
  intro c hc
  rcases List.mem_append.mp hc with h | h
  · rw [List.eq_of_mem_replicate h]; decide
  · simp at h; rw [h]; decide

theorem s2cex_no_space : ∀ c ∈ s2cex, isSpaceChar c = false := by
  intro c hc
  rw [List.eq_of_mem_replicate hc]; decide

theorem s1cex_length : s1cex.length = 1500 := by
  unfold s1cex; simp [-List.reduceReplicate]

theorem s2cex_length : s2cex.length = 1400 := by
  unfold s2cex; simp [-List.reduceReplicate]

theorem dropWhile_s1cex : List.dropWhile isSpaceChar s1cex = s1cex := by
  rw [show s1cex = 'a' :: (List.replicate 1498 'a' ++ ['.']) from rfl]
  exact dropWhile_cons_not (by decide) _

theorem dropWhile_s2cex : List.dropWhile isSpaceChar s2cex = s2cex := by
  rw [show s2cex = 'b' :: List.replicate 1399 'b' from rfl]
  exact dropWhile_cons_not (by decide) _

theorem dropWhile_s1cex_reverse :
    List.dropWhile isSpaceChar s1cex.reverse = s1cex.reverse := by
  unfold s1cex
  rw [List.reverse_append, List.reverse_replicate,
    show ['.'].reverse = ['.'] from rfl, List.singleton_append]
  exact dropWhile_cons_not (by decide) _

theorem splitSentences_cex : splitSentences cexText = [s1cex, s2cex] := by
  unfold splitSentences cexText
  rw [splitSentencesAux_no_space s1cex s1cex_no_space false (' ' :: s2cex) []]
  rw [show s1cex.foldl (fun _ c => isSentenceEnd c) false = true by
    unfold s1cex; rw [foldl_sentenceEnd]; decide]
  rw [show splitSentencesAux true (' ' :: s2cex) (s1cex.reverse ++ []) =
      (s1cex.reverse ++ []).reverse ::
        splitSentencesAux false (s2cex.dropWhile isSpaceChar) [] by
    simp only [splitSentencesAux]
    rw [if_pos (by decide)]]
  rw [dropWhile_s2cex]
  rw [show splitSentencesAux false s2cex [] =
      splitSentencesAux false (s2cex ++ []) [] by rw [List.append_nil]]
  rw [splitSentencesAux_no_space s2cex s2cex_no_space _ [] []]
  simp only [splitSentencesAux]
  simp

theorem chunk2cex_length : chunk2cex.length = 1701 := by
  unfold chunk2cex
  rw [List.length_append, List.length_cons, List.length_cons, s2cex_length]
  simp [-List.reduceReplicate]

theorem dropWhile_chunk2cex : List.dropWhile isSpaceChar chunk2cex = chunk2cex := by
  rw [show chunk2cex = 'a' :: (List.replicate 298 'a' ++ '.' :: ' ' :: s2cex) from rfl]
  exact dropWhile_cons_not (by decide) _

theorem dropWhile_chunk2cex_reverse :
    List.dropWhile isSpaceChar chunk2cex.reverse = chunk2cex.reverse := by
  unfold chunk2cex s2cex
  rw [List.reverse_append, List.reverse_cons, List.reverse_cons, List.reverse_replicate]
  rw [show List.replicate 1400 'b' = 'b' :: List.replicate 1399 'b' from rfl]
  rw [List.cons_append, List.cons_append]
  exact dropWhile_cons_not (by decide) _

theorem split_into_chunks_cex : split_into_chunks cexText = [s1cex, chunk2cex] := by
  unfold split_into_chunks
  rw [splitSentences_cex]
  rw [show splitChunksLoop [s1cex, s2cex] [] = splitChunksLoop [s2cex] (' ' :: s1cex) by
    simp only [splitChunksLoop]
    rw [if_pos (show List.length [] + s1cex.length ≤ RAG_CHUNK_SIZE by
      rw [List.length_nil, s1cex_length]; decide)]
    rw [List.nil_append]]
  have hstrip1 : pyStrip (' ' :: s1cex) = s1cex := by
    rw [pyStrip_cons_space (by decide)]
    exact pyStrip_eq_self dropWhile_s1cex dropWhile_s1cex_reverse
  have hs1ne : s1cex ≠ [] := by
    rw [show s1cex = 'a' :: (List.replicate 1498 'a' ++ ['.']) from rfl]
    exact List.cons_ne_nil _ _
  have htake : takeLast RAG_CHUNK_OVERLAP (' ' :: s1cex) = List.replicate 299 'a' ++ ['.'] := by
    unfold takeLast
    rw [show (' ' :: s1cex).length - RAG_CHUNK_OVERLAP = 1201 by
      rw [List.length_cons, s1cex_length]; decide]
    rw [show (' ' :: s1cex) = (' ' :: List.replicate 1200 'a') ++
        (List.replicate 299 'a' ++ ['.']) by
      unfold s1cex
      rw [show (1499 : Nat) = 1200 + 299 from rfl, List.replicate_add,
        List.cons_append, List.append_assoc]]
    rw [show (1201 : Nat) = (' ' :: List.replicate 1200 'a').length by
      rw [List.length_cons]; simp [-List.reduceReplicate]]
    exact List.drop_left ..
  rw [show splitChunksLoop [s2cex] (' ' :: s1cex) =
      [s1cex] ++ splitChunksLoop [] chunk2cex by
    simp only [splitChunksLoop]
    rw [if_neg (show ¬((' ' :: s1cex).length + s2cex.length ≤ RAG_CHUNK_SIZE) by
      rw [List.length_cons, s1cex_length, s2cex_length]; decide)]
    rw [if_pos (show RAG_CHUNK_OVERLAP < (' ' :: s1cex).length by
      rw [List.length_cons, s1cex_length]; decide)]
    rw [htake, hstrip1]
    rw [if_neg (show ¬(s1cex = []) from hs1ne)]
    rw [show List.replicate 299 'a' ++ ['.'] ++ ' ' :: s2cex = chunk2cex by
      unfold chunk2cex
      rw [List.append_assoc, List.singleton_append]]]
  have hstrip2 : pyStrip chunk2cex = chunk2cex :=
    pyStrip_eq_self dropWhile_chunk2cex dropWhile_chunk2cex_reverse
  simp only [splitChunksLoop]
  rw [hstrip2]
  rw [if_neg (show ¬(chunk2cex = []) by
    rw [show chunk2cex = 'a' :: (List.replicate 298 'a' ++ '.' :: ' ' :: s2cex) from rfl]
    exact List.cons_ne_nil _ _)]
  rfl

/-! ### C3: chunk length bounds -/

theorem splitChunksLoop_length_bound :
    ∀ (sentences : List (List Char)) (current : List Char),
      (∀ s ∈ sentences, s.length ≤ RAG_CHUNK_SIZE) →
      current.length ≤ RAG_CHUNK_SIZE + RAG_CHUNK_OVERLAP + 1 →
      ∀ c ∈ splitChunksLoop sentences current,
        c.length ≤ RAG_CHUNK_SIZE + RAG_CHUNK_OVERLAP + 1 := by
  intro sentences
  induction sentences with
  | nil =>
    intro current _ hcur c hc
    simp only [splitChunksLoop] at hc
    by_cases hstrip : pyStrip current = []
    · rw [if_pos hstrip] at hc; simp at hc
    · rw [if_neg hstrip] at hc
      simp at hc
      rw [hc]
      exact le_trans (pyStrip_length_le current) hcur
  | cons s rest ih =>
    intro current hs hcur c hc
    have hsle : s.length ≤ RAG_CHUNK_SIZE := hs s (by simp)
    have hrest : ∀ t ∈ rest, t.length ≤ RAG_CHUNK_SIZE := fun t ht => hs t (by simp [ht])
    simp only [splitChunksLoop] at hc
    by_cases hguard : current.length + s.length ≤ RAG_CHUNK_SIZE
    · rw [if_pos hguard] at hc
      refine ih _ hrest ?_ c hc
      rw [List.length_append, List.length_cons]
      omega
    · rw [if_neg hguard] at hc
      rcases List.mem_append.mp hc with h1 | h2
      · by_cases hstrip : pyStrip current = []
        · rw [if_pos hstrip] at h1; simp at h1
        · rw [if_neg hstrip] at h1
          simp at h1
          rw [h1]
          exact le_trans (pyStrip_length_le current) hcur
      · by_cases hovl : RAG_CHUNK_OVERLAP < current.length
        · rw [if_pos hovl] at h2
          refine ih _ hrest ?_ c h2
          rw [List.length_append, List.length_cons, takeLast_length_of_lt hovl]
          omega
        · rw [if_neg hovl] at h2
          refine ih _ hrest ?_ c h2
          omega

/-- C3, counterexample: for the text `cexText` (a 1500-character sentence
followed by a 1400-character sentence, both within `RAG_CHUNK_SIZE = 1500`),
`_split_into_chunks` emits a chunk of length 1701 > 1500, so it is not true
that every chunk's length is at most the chunk size except for chunks coming
from sentences that are themselves longer than the chunk size. -/
theorem split_into_chunks_exceeds_chunk_size :
    (∀ s ∈ splitSentences cexText, s.length ≤ RAG_CHUNK_SIZE) ∧
    ∃ c ∈ split_into_chunks cexText, RAG_CHUNK_SIZE < c.length := by
  constructor
  · intro s hs
    rw [splitSentences_cex] at hs
    rcases List.mem_cons.mp hs with h | h
    · rw [h, s1cex_length]; decide
    · simp at h; rw [h, s2cex_length]; decide
  · refine ⟨chunk2cex, ?_, ?_⟩
    · rw [split_into_chunks_cex]; simp
    · rw [chunk2cex_length]; decide

/-- C3 (amended): for the configured `chunk_size C = 1500` and
`overlap O = 300`, if every sentence of the input has length at most `C`,
then every chunk produced by `_split_into_chunks` has length at most
`C + O + 1` (the extra `O + 1` coming from the overlap seed and the
separating space); the claimed bound `C` itself does not hold. -/
theorem split_into_chunks_length_bound (text : List Char)
    (h : ∀ s ∈ splitSentences text, s.length ≤ RAG_CHUNK_SIZE) :
    ∀ c ∈ split_into_chunks text, c.length ≤ RAG_CHUNK_SIZE + RAG_CHUNK_OVERLAP + 1 := by
  unfold split_into_chunks
  exact splitChunksLoop_length_bound (splitSentences text) [] h (by simp)

theorem splitSentences_ab : splitSentences ['a', 'b'] = [['a', 'b']] := by
  unfold splitSentences
  rw [show (['a', 'b'] : List Char) = ['a', 'b'] ++ [] by simp]
  rw [splitSentencesAux_no_space ['a', 'b'] (by decide) false [] []]
  simp only [splitSentencesAux]
  simp

/-- C3 witness: the amended bound instantiated at the concrete text "ab". -/
theorem split_into_chunks_length_bound_witness :
    (∀ s ∈ splitSentences ['a', 'b'], s.length ≤ RAG_CHUNK_SIZE) ∧
    (∀ c ∈ split_into_chunks ['a', 'b'],
      c.length ≤ RAG_CHUNK_SIZE + RAG_CHUNK_OVERLAP + 1) := by
  have h : ∀ s ∈ splitSentences ['a', 'b'], s.length ≤ RAG_CHUNK_SIZE := by
    rw [splitSentences_ab]
    intro s hs
    simp at hs
    rw [hs]
    decide
  exact ⟨h, split_into_chunks_length_bound ['a', 'b'] h⟩

/-! ### C1: properties of keyword_retrieve's ranking -/

theorem scoredChunks_mem {question : List Char} {chunks : List (List Char)}
    {p : Nat × List Char} (hp : p ∈ scoredChunks question chunks) :
    p.1 = chunk_score question p.2 ∧ 0 < p.1 := by
  unfold scoredChunks at hp
  rw [List.mem_filter] at hp
  obtain ⟨hmem, hpos⟩ := hp
  rw [List.mem_map] at hmem
  obtain ⟨c, _, rfl⟩ := hmem
  exact ⟨rfl, by simpa using hpos⟩

theorem filter_orderedInsert_eq (p : Nat × List Char) (l : List (Nat × List Char))
    (n : Nat) (hp : p.1 = n) :
    (List.orderedInsert scoreGe p l).filter (fun q => q.1 == n) =
      p :: l.filter (fun q => q.1 == n) := by
  induction l with
  | nil => simp [List.orderedInsert, hp]
  | cons b t ih =>
    by_cases hb : scoreGe p b
    · rw [List.orderedInsert_of_le scoreGe t hb]
      rw [List.filter_cons_of_pos (by simp [hp])]
    · rw [show List.orderedInsert scoreGe p (b :: t) =
          b :: List.orderedInsert scoreGe p t by
        simp only [List.orderedInsert]; rw [if_neg hb]]
      have hbn : (b.1 == n) = false := by
        simp only [scoreGe, not_le] at hb
        simp
        omega
      rw [List.filter_cons_of_neg (by simp [hbn]), ih,
        List.filter_cons_of_neg (by simp [hbn])]

theorem filter_orderedInsert_ne (p : Nat × List Char) (l : List (Nat × List Char))
    (n : Nat) (hp : p.1 ≠ n) :
    (List.orderedInsert scoreGe p l).filter (fun q => q.1 == n) =
      l.filter (fun q => q.1 == n) := by
  induction l with
  | nil => simp [List.orderedInsert, hp]
  | cons b t ih =>
    by_cases hb : scoreGe p b
    · rw [List.orderedInsert_of_le scoreGe t hb]
      rw [List.filter_cons_of_neg (by simp [hp])]
    · rw [show List.orderedInsert scoreGe p (b :: t) =
          b :: List.orderedInsert scoreGe p t by
        simp only [List.orderedInsert]; rw [if_neg hb]]
      by_cases hbn : b.1 = n
      · rw [List.filter_cons_of_pos (by simp [hbn]), ih,
          List.filter_cons_of_pos (by simp [hbn])]
      · rw [List.filter_cons_of_neg (by simp [hbn]), ih,
          List.filter_cons_of_neg (by simp [hbn])]

theorem filter_insertionSort (l : List (Nat × List Char)) (n : Nat) :
    (List.insertionSort scoreGe l).filter (fun q => q.1 == n) =
      l.filter (fun q => q.1 == n) := by
  induction l with
  | nil => rfl
  | cons p t ih =>
    rw [show List.insertionSort scoreGe (p :: t) =
        List.orderedInsert scoreGe p (List.insertionSort scoreGe t) from rfl]
    by_cases hp : p.1 = n
    · rw [filter_orderedInsert_eq _ _ _ hp, ih,
        List.filter_cons_of_pos (by simp [hp])]
    · rw [filter_orderedInsert_ne _ _ _ hp, ih,
        List.filter_cons_of_neg (by simp [hp])]

/-- C1: for every indexed chunk list and every query whose filtered token set
is non-empty, `keyword_retrieve` returns at most `top_k` chunk texts, each
with positive score, in weakly descending score order, and the ranking is
stable: for every score value, the ranked entries with that score are exactly
the positively-scored entries with that score in original insertion order. -/
theorem keyword_retrieve_spec (question : List Char) (chunks : List (List Char))
    (k : Nat) (h : q_words question ≠ ∅) :
    (keyword_retrieve question k chunks).length ≤ k ∧
    (∀ c ∈ keyword_retrieve question k chunks, 0 < chunk_score question c) ∧
    (keyword_retrieve question k chunks).Pairwise
      (fun a b => chunk_score question b ≤ chunk_score question a) ∧
    ∀ n, (rankedScored question chunks).filter (fun p => p.1 == n) =
      (scoredChunks question chunks).filter (fun p => p.1 == n) := by
  have hmem_ranked : ∀ p ∈ rankedScored question chunks,
      p.1 = chunk_score question p.2 ∧ 0 < p.1 := by
    intro p hp
    exact scoredChunks_mem
      ((List.perm_insertionSort scoreGe (scoredChunks question chunks)).mem_iff.mp hp)
  refine ⟨?_, ?_, ?_, ?_⟩
  · rw [keyword_retrieve, if_neg h]
    rw [List.length_map]
    exact List.length_take_le k _
  · intro c hc
    rw [keyword_retrieve, if_neg h] at hc
    rw [List.mem_map] at hc
    obtain ⟨p, hp, rfl⟩ := hc
    have hp' := hmem_ranked p (List.mem_of_mem_take hp)
    omega
  · rw [keyword_retrieve, if_neg h]
    rw [List.pairwise_map]
    have hsorted : (rankedScored question chunks).Pairwise scoreGe :=
      List.sorted_insertionSort scoreGe (scoredChunks question chunks)
    have htake : ((rankedScored question chunks).take k).Pairwise scoreGe :=
      hsorted.sublist (List.take_sublist k _)
    refine htake.imp_of_mem ?_
    intro p q hp hq hpq
    have hp' := hmem_ranked p (List.mem_of_mem_take hp)
    have hq' := hmem_ranked q (List.mem_of_mem_take hq)
    rw [← hp'.1, ← hq'.1]
    exact hpq
  · intro n
    exact filter_insertionSort _ n

theorem pyLower_pressure : pyLower "pressure".data = "pressure".data := rfl

theorem q_words_pressure : q_words "pressure".data = {"pressure".data} := by
  unfold q_words findWords
  rw [pyLower_pressure]
  decide

/-- C1 witness: the specification instantiated for the one-chunk index
`["pressure is high"]` and the query "pressure". -/
theorem keyword_retrieve_spec_witness :
    q_words "pressure".data ≠ ∅ ∧
    ((keyword_retrieve "pressure".data 5 ["pressure is high".data]).length ≤ 5 ∧
    (∀ c ∈ keyword_retrieve "pressure".data 5 ["pressure is high".data],
      0 < chunk_score "pressure".data c) ∧
    (keyword_retrieve "pressure".data 5 ["pressure is high".data]).Pairwise
      (fun a b => chunk_score "pressure".data b ≤ chunk_score "pressure".data a) ∧
    ∀ n, (rankedScored "pressure".data ["pressure is high".data]).filter
        (fun p => p.1 == n) =
      (scoredChunks "pressure".data ["pressure is high".data]).filter
        (fun p => p.1 == n)) := by
  have h : q_words "pressure".data ≠ ∅ := by
    rw [q_words_pressure]
    decide
  exact ⟨h, keyword_retrieve_spec "pressure".data ["pressure is high".data] 5 h⟩

/-! ### C5: the exact-phrase bonus dominates partial token overlap -/

theorem containsSubstr_self (l : List Char) : containsSubstr l l = true := by
  cases l with
  | nil => rfl
  | cons c t =>
    unfold containsSubstr
    rw [Bool.or_eq_true]
    left
    rw [ List.isPrefixOf_iff_prefix]

theorem q_words_subset_c_words (question : List Char) :
    q_words question ⊆ c_words question :=
  fun _ hw => Finset.filter_subset _ _ hw

/-- C5: when the query's filtered tokens within some other chunk form a
proper subset of the query's filtered token set and the lowercased query is
not a substring of that chunk, the other chunk's score is strictly below the
score of a chunk whose text equals the query (which receives the full token
overlap plus the +10 exact-phrase bonus). -/
theorem exact_match_dominates (question other : List Char)
    (hsub : q_words question ∩ c_words other ⊂ q_words question)
    (hnosub : containsSubstr (pyLower question) (pyLower other) = false) :
    chunk_score question other < chunk_score question question := by
  unfold chunk_score
  rw [hnosub, containsSubstr_self]
  rw [if_neg (by simp), if_pos rfl]
  rw [Finset.inter_eq_left.mpr (q_words_subset_c_words question)]
  have := Finset.card_lt_card hsub
  omega

/-- C5 witness: the dominance instantiated at query "pressure" against the
non-matching chunk "tank". -/
theorem exact_match_dominates_witness :
    (q_words "pressure".data ∩ c_words "tank".data ⊂ q_words "pressure".data) ∧
    containsSubstr (pyLower "pressure".data) (pyLower "tank".data) = false ∧
    chunk_score "pressure".data "tank".data <
      chunk_score "pressure".data "pressure".data :=
  ⟨by decide, by decide, exact_match_dominates _ _ (by decide) (by decide)⟩

/-! ### C8: _load_index never raises and applies its defaults -/

/-- C8: `_load_index` is total over every on-disk state; from a fresh (empty)
in-memory index, a missing chunk file returns 0 and leaves the index empty,
a chunk-file read that raises is caught and also returns 0 leaving the index
empty, and when the chunk file loads but the metadata sidecar is missing,
every loaded chunk's source label defaults to "Unknown". -/
theorem load_index_error_handling (disk : DiskState) :
    (disk.chunksFile = none →
      load_index disk ⟨[], []⟩ = (0, ⟨[], []⟩)) ∧
    (∀ e, disk.chunksFile = some (Except.error e) →
      load_index disk ⟨[], []⟩ = (0, ⟨[], []⟩)) ∧
    (∀ content, disk.chunksFile = some (Except.ok content) →
      disk.metadataFile = none →
      ∀ m ∈ (load_index disk ⟨[], []⟩).2.metadata, m.source = "Unknown") := by
  obtain ⟨cf, mf⟩ := disk
  refine ⟨?_, ?_, ?_⟩
  · intro h
    simp only at h
    rw [h]
    rfl
  · intro e h
    simp only at h
    rw [h]
    rfl
  · intro content hc hm m hmem
    simp only at hc hm
    rw [hc, hm] at hmem
    simp only [load_index] at hmem
    rw [List.eq_of_mem_replicate hmem]

/-- C8 witness: a disk with both artifacts missing loads as the empty index. -/
theorem load_index_error_handling_witness :
    load_index ⟨none, none⟩ ⟨[], []⟩ = (0, ⟨[], []⟩) :=
  (load_index_error_handling ⟨none, none⟩).1 rfl

/-! ### C4: preservation of the chunks/metadata alignment invariant -/

theorem process_document_invariant (name : String) (text : Except Unit (List Char))
    (st : IndexState) (h : invariant st) :
    invariant (process_document name text st).2 := by
  cases text with
  | error e => exact h
  | ok t =>
    unfold invariant process_document
    unfold invariant at h
    simp
    omega

theorem load_index_invariant (disk : DiskState) (st : IndexState) (h : invariant st)
    (halign : sidecarAligned disk) : invariant (load_index disk st).2 := by
  obtain ⟨cf, mf⟩ := disk
  cases cf with
  | none => exact h
  | some ec =>
    cases ec with
    | error e => exact h
    | ok content =>
      cases mf with
      | none =>
        show invariant ⟨parseChunks content, List.replicate _ _⟩
        unfold invariant
        simp
      | some em =>
        cases em with
        | error e => exact absurd halign (by unfold sidecarAligned; simp)
        | ok ms =>
          show invariant ⟨parseChunks content, ms⟩
          unfold invariant
          unfold sidecarAligned at halign
          simp only at halign
          simp [halign]

theorem foldl_ingest_invariant (docs : List (String × Except Unit (List Char))) :
    ∀ acc : Nat × IndexState, invariant acc.2 →
      invariant (docs.foldl ingestStep acc).2 := by
  induction docs with
  | nil => intro acc h; exact h
  | cons d t ih =>
    intro acc h
    rw [List.foldl_cons]
    exact ih _ (process_document_invariant d.1 d.2 acc.2 h)

/-- C4 (amended): ingesting a document, clearing, and the whole directory
ingestion preserve the invariant `len(chunks) == len(metadata)`, and
`_load_index` preserves it whenever the on-disk pair is aligned (metadata
sidecar absent, or parsed to exactly one entry per loaded chunk); for an
arbitrary on-disk combination the invariant can break (see the
counterexample `load_index_breaks_invariant`). -/
theorem index_invariant_preserved (st : IndexState) (disk : DiskState)
    (name : String) (text : Except Unit (List Char)) (force : Bool)
    (docs : List (String × Except Unit (List Char))) (hinv : invariant st) :
    invariant (process_document name text st).2 ∧
    invariant (clearSystem ⟨st, disk⟩).index ∧
    (sidecarAligned disk → invariant (load_index disk st).2) ∧
    (sidecarAligned disk →
      invariant (index_documents_directory force docs ⟨st, disk⟩).2.index) := by
  refine ⟨process_document_invariant name text st hinv, rfl, ?_, ?_⟩
  · intro halign
    exact load_index_invariant disk st hinv halign
  · intro halign
    unfold index_documents_directory
    split
    · exact load_index_invariant disk st hinv halign
    · split
      · exact hinv
      · exact foldl_ingest_invariant docs (0, st) hinv

/-- C4 witness: the preservation statement at the empty index, an empty disk,
and one successfully extracted empty document. -/
theorem index_invariant_preserved_witness :
    invariant ⟨[], []⟩ ∧
    (invariant (process_document "d" (Except.ok []) ⟨[], []⟩).2 ∧
    invariant (clearSystem ⟨⟨[], []⟩, ⟨none, none⟩⟩).index ∧
    (sidecarAligned ⟨none, none⟩ →
      invariant (load_index ⟨none, none⟩ ⟨[], []⟩).2) ∧
    (sidecarAligned ⟨none, none⟩ →
      invariant (index_documents_directory true [] ⟨⟨[], []⟩, ⟨none, none⟩⟩).2.index)) :=
  ⟨rfl, index_invariant_preserved ⟨[], []⟩ ⟨none, none⟩ "d" (Except.ok []) true [] rfl⟩

/-! ### C9: the save/load round-trip -/

theorem infix_of_pre {l1 l2 : List Char} (h : l1 <+: l2) : l1 <:+: l2 := by
  obtain ⟨t, rfl⟩ := h
  exact ⟨[], t, rfl⟩

theorem infix_of_suf {l1 l2 : List Char} (h : l1 <:+ l2) : l1 <:+: l2 := by
  obtain ⟨s, rfl⟩ := h
  exact ⟨s, [], by simp⟩

theorem newline_not_mem_SEP : ('\n' ∈ SEP) = False := by decide

theorem splitSepAux_no_match (l : List Char) :
    ∀ (rest acc : List Char),
      (∀ i < l.length, SEP.isPrefixOf (List.drop i (l ++ rest)) = false) →
      splitSepAux (l ++ rest) acc = splitSepAux rest (l.reverse ++ acc) := by
  induction l with
  | nil => intro rest acc _; simp
  | cons c t ih =>
    intro rest acc h
    have h0 : SEP.isPrefixOf (c :: (t ++ rest)) = false := by
      have := h 0 (by simp)
      simpa using this
    rw [List.cons_append]
    rw [show splitSepAux (c :: (t ++ rest)) acc = splitSepAux (t ++ rest) (c :: acc) by
      simp only [splitSepAux]; rw [h0]; simp]
    rw [ih rest (c :: acc) (fun i hi => by
      have := h (i + 1) (by simp; omega)
      simpa using this)]
    simp

theorem splitSepAux_at_sep (rest acc : List Char) :
    splitSepAux (SEP ++ rest) acc = acc.reverse :: splitSepAux rest [] := by
  have hpref : SEP.isPrefixOf (SEP ++ rest) = true := by
    rw [ List.isPrefixOf_iff_prefix]
    exact List.prefix_append SEP rest
  have hdrop : List.drop SEP.length (SEP ++ rest) = rest := List.drop_left ..
  rw [show SEP ++ rest = '#' :: ("##CHUNK_SEPARATOR###".data ++ rest) from rfl] at hpref hdrop ⊢
  simp only [splitSepAux]
  rw [hpref, hdrop]
  simp

theorem sep_no_match_in_piece (c : List Char) (hsep : ¬ SEP <:+: c) (rest : List Char) :
    ∀ i < (c ++ ['\n']).length,
      SEP.isPrefixOf (List.drop i ((c ++ ['\n']) ++ rest)) = false := by
  intro i hi
  by_contra hpre
  rw [Bool.not_eq_false, List.isPrefixOf_iff_prefix] at hpre
  have hi' : i ≤ c.length := by
    rw [List.length_append] at hi
    simp at hi
    omega
  have hsplit : List.drop i ((c ++ ['\n']) ++ rest) =
      (List.drop i c ++ ['\n']) ++ rest := by
    rw [List.drop_append_eq_append_drop, List.drop_append_eq_append_drop]
    have h1 : i - c.length = 0 := by omega
    have h2 : i - (c ++ ['\n']).length = 0 := by
      rw [List.length_append]; simp; omega
    rw [h1, h2]
    simp
  rw [hsplit] at hpre
  set d : List Char := List.drop i c ++ ['\n'] with hd
  have hnl_d : '\n' ∈ d := by rw [hd]; simp
  rcases List.prefix_or_prefix_of_prefix hpre (List.prefix_append d rest) with h1 | h2
  · -- SEP <+: d = drop i c ++ ['\n']
    rcases List.prefix_or_prefix_of_prefix h1 (List.prefix_append (List.drop i c) ['\n'])
      with h3 | h4
    · -- SEP <+: drop i c, hence SEP is an infix of c
      exact hsep ((infix_of_pre h3).trans (infix_of_suf (List.drop_suffix i c)))
    · -- drop i c <+: SEP and SEP <+: d with |d| = |drop i c| + 1
      have hlen1 : (List.drop i c).length ≤ SEP.length := h4.length_le
      have hlen2 : SEP.length ≤ d.length := h1.length_le
      have hdlen : d.length = (List.drop i c).length + 1 := by rw [hd]; simp
      rcases Nat.eq_or_lt_of_le hlen1 with heq | hlt
      · -- |drop i c| = |SEP|: SEP = drop i c, a suffix of c
        have : List.drop i c = SEP := h4.eq_of_length heq
        exact hsep (by rw [← this]; exact infix_of_suf (List.drop_suffix i c))
      · -- |SEP| = |d|: SEP = d contains the newline
        have : SEP = d := h1.eq_of_length (by omega)
        rw [← this] at hnl_d
        exact (newline_not_mem_SEP ▸ hnl_d)
  · -- d <+: SEP: the newline of d would be in SEP
    exact (newline_not_mem_SEP ▸ (h2.subset hnl_d))

theorem splitSepAux_piece (c rest acc : List Char) (hsep : ¬ SEP <:+: c) :
    splitSepAux ((c ++ ['\n']) ++ (SEP ++ rest)) acc =
      (acc.reverse ++ (c ++ ['\n'])) :: splitSepAux rest [] := by
  rw [splitSepAux_no_match (c ++ ['\n']) (SEP ++ rest) acc
    (sep_no_match_in_piece c hsep (SEP ++ rest))]
  rw [splitSepAux_at_sep]
  simp

theorem SEP_not_infix_newline_cons (c : List Char) (hsep : ¬ SEP <:+: c) :
    ¬ SEP <:+: ('\n' :: c) := by
  intro h
  rcases List.infix_cons_iff.mp h with h1 | h2
  · rw [show SEP = '#' :: "##CHUNK_SEPARATOR###".data from rfl] at h1
    rcases List.cons_prefix_cons.mp h1 with ⟨hhead, _⟩
    exact absurd hhead (by decide)
  · exact hsep h2

theorem splitSepAux_serialize_tail (chunks : List (List Char))
    (hsep : ∀ c ∈ chunks, ¬ SEP <:+: c) :
    splitSepAux ('\n' :: serializeChunks chunks) [] =
      chunks.map (fun c => '\n' :: (c ++ ['\n'])) ++ [['\n']] := by
  induction chunks with
  | nil =>
    show splitSepAux ['\n'] [] = [['\n']]
    rw [show splitSepAux ['\n'] [] = splitSepAux [] ['\n'] by
      simp only [splitSepAux]
      rw [show SEP.isPrefixOf ['\n'] = false by decide]
      simp]
    simp only [splitSepAux]
    rfl
  | cons c t ih =>
    have hc := hsep c (by simp)
    have ht : ∀ x ∈ t, ¬ SEP <:+: x := fun x hx => hsep x (by simp [hx])
    have hshape : '\n' :: serializeChunks (c :: t) =
        (('\n' :: c) ++ ['\n']) ++ (SEP ++ ('\n' :: serializeChunks t)) := by
      unfold serializeChunks sepBlock
      simp
    rw [hshape, splitSepAux_piece _ _ _ (SEP_not_infix_newline_cons c hc)]
    rw [ih ht]
    simp

theorem splitSepAux_serialize_cons (c : List Char) (t : List (List Char))
    (hc : ¬ SEP <:+: c) (ht : ∀ x ∈ t, ¬ SEP <:+: x) :
    splitSepAux (serializeChunks (c :: t)) [] =
      (c ++ ['\n']) :: (t.map (fun d => '\n' :: (d ++ ['\n'])) ++ [['\n']]) := by
  have hshape : serializeChunks (c :: t) =
      (c ++ ['\n']) ++ (SEP ++ ('\n' :: serializeChunks t)) := by
    unfold serializeChunks sepBlock
    simp
  rw [hshape, splitSepAux_piece _ _ _ hc, splitSepAux_serialize_tail t ht]
  simp

theorem pyStrip_append_space {c : Char} (hc : isSpaceChar c = true) (l : List Char) :
    pyStrip (l ++ [c]) = pyStrip l := by
  unfold pyStrip
  rw [List.dropWhile_append]
  by_cases he : (List.dropWhile isSpaceChar l).isEmpty
  · rw [if_pos he]
    have h1 : List.dropWhile isSpaceChar [c] = [] := by
      rw [show ([c] : List Char) = c :: [] from rfl, List.dropWhile_cons, hc]
      simp
    have h2 : List.dropWhile isSpaceChar l = [] := by
      rwa [List.isEmpty_iff] at he
    rw [h1, h2]
  · rw [if_neg he]
    rw [List.reverse_append, show ([c] : List Char).reverse = [c] from rfl,
      List.singleton_append, List.dropWhile_cons, hc]
    simp

theorem isEmpty_false_of_ne_nil {c : List Char} (h : c ≠ []) : c.isEmpty = false := by
  cases c with
  | nil => exact absurd rfl h
  | cons a t => rfl

theorem parseChunks_serializeChunks (chunks : List (List Char))
    (hne : ∀ c ∈ chunks, c ≠ [])
    (hstrip : ∀ c ∈ chunks, pyStrip c = c)
    (hsep : ∀ c ∈ chunks, ¬ SEP <:+: c) :
    parseChunks (serializeChunks chunks) = chunks := by
  cases chunks with
  | nil =>
    show parseChunks (serializeChunks []) = []
    unfold parseChunks serializeChunks
    simp only [List.map_nil, List.flatten_nil]
    rw [show splitSepAux [] [] = [[]] by simp only [splitSepAux]; rfl]
    rfl
  | cons c t =>
    unfold parseChunks
    rw [splitSepAux_serialize_cons c t (hsep c (by simp))
      (fun x hx => hsep x (by simp [hx]))]
    rw [List.map_cons, List.map_append, List.map_map]
    rw [show pyStrip (c ++ ['\n']) = c by
      rw [pyStrip_append_space (by decide)]
      exact hstrip c (by simp)]
    rw [show t.map (pyStrip ∘ fun d => '\n' :: (d ++ ['\n'])) = t by
      have heq : t.map (pyStrip ∘ fun d => '\n' :: (d ++ ['\n'])) = t.map id :=
        List.map_congr_left (fun d hd => by
          simp only [Function.comp_apply, id_eq]
          rw [pyStrip_cons_space (by decide), pyStrip_append_space (by decide)]
          exact hstrip d (by simp [hd]))
      rw [heq, List.map_id]]
    rw [show List.map pyStrip [['\n']] = [[]] by
      rw [List.map_cons, List.map_nil]
      rfl]
    rw [List.filter_cons_of_pos (by
      rw [isEmpty_false_of_ne_nil (hne c (by simp))]
      rfl)]
    rw [List.filter_append]
    rw [List.filter_eq_self.mpr (fun x hx => by
      rw [isEmpty_false_of_ne_nil (hne x (by simp [hx]))]
      rfl)]
    rw [show List.filter (fun c => !c.isEmpty) [([] : List Char)] = [] from rfl]
    simp

/-- C9: for every in-memory index whose chunks are non-empty, stripped of
surrounding whitespace, and free of the separator token, and whose metadata
list accompanies them, `_save_index` followed by `_load_index` restores
exactly the same chunk sequence and the same metadata list. -/
theorem save_load_roundtrip (st st' : IndexState)
    (hne : ∀ c ∈ st.chunks, c ≠ [])
    (hstrip : ∀ c ∈ st.chunks, pyStrip c = c)
    (hsep : ∀ c ∈ st.chunks, ¬ SEP <:+: c) :
    load_index (save_index st) st' = (st.chunks.length, ⟨st.chunks, st.metadata⟩) := by
  show (let cs := parseChunks (serializeChunks st.chunks)
    (cs.length, ({ chunks := cs, metadata := st.metadata } : IndexState))) = _
  rw [parseChunks_serializeChunks st.chunks hne hstrip hsep]

/-- C9 witness: the round-trip at a one-chunk index. -/
theorem save_load_roundtrip_witness :
    (∀ c ∈ [['a']], c ≠ ([] : List Char)) ∧
    (∀ c ∈ [['a']], pyStrip c = c) ∧
    (∀ c ∈ [['a']], ¬ SEP <:+: c) ∧
    load_index (save_index ⟨[['a']], [⟨"doc"⟩]⟩) ⟨[], []⟩ =
      (1, ⟨[['a']], [⟨"doc"⟩]⟩) :=
  ⟨by decide, by decide, by decide,
    save_load_roundtrip ⟨[['a']], [⟨"doc"⟩]⟩ ⟨[], []⟩
      (by decide) (by decide) (by decide)⟩

/-- C4, counterexample: loading a disk whose chunk file holds one serialized
chunk while the metadata sidecar parses to an empty list ends with 1 chunk
and 0 metadata entries in memory, breaking `len(chunks) == len(metadata)`. -/
theorem load_index_breaks_invariant :
    ¬ invariant (load_index
      ⟨some (Except.ok (serializeChunks [['a']])), some (Except.ok [])⟩
      ⟨[], []⟩).2 := by
  have hp : parseChunks (serializeChunks [['a']]) = [['a']] :=
    parseChunks_serializeChunks [['a']] (by decide) (by decide) (by decide)
  show ¬ invariant ⟨parseChunks (serializeChunks [['a']]), []⟩
  unfold invariant
  rw [hp]
  decide

/-- C6 (amended): `clear()` empties both in-memory sequences, but performs
no persistence: the on-disk artifacts are left exactly as they were. -/
theorem clear_resets_memory_only (s : SystemState) :
    (clearSystem s).index.chunks = [] ∧ (clearSystem s).index.metadata = [] ∧
    (clearSystem s).disk = s.disk :=
  ⟨rfl, rfl, rfl⟩

/-- C6, counterexample: clearing a system whose disk was saved with one chunk
leaves the chunk file holding that chunk's serialization, which differs from
the serialized empty state — the artifacts are not rewritten to empty. -/
theorem clear_does_not_persist_cex :
    ((clearSystem ⟨⟨[['a']], [⟨"doc"⟩]⟩, save_index ⟨[['a']], [⟨"doc"⟩]⟩⟩).disk.chunksFile
      = some (Except.ok (serializeChunks [['a']]))) ∧
    serializeChunks [['a']] ≠ serializeChunks [] :=
  ⟨rfl, by decide⟩

/-! ### C7: clear followed by re-ingestion -/

theorem ingestStep_spec (acc : Nat × IndexState) (d : String × Except Unit (List Char)) :
    (ingestStep acc d).2.chunks = acc.2.chunks ++ docChunks d ∧
    (ingestStep acc d).1 = acc.1 + (docChunks d).length := by
  obtain ⟨name, text⟩ := d
  cases text with
  | error e => simp [ingestStep, process_document, docChunks]
  | ok t => simp [ingestStep, process_document, docChunks]

theorem foldl_ingest_spec (docs : List (String × Except Unit (List Char))) :
    ∀ acc : Nat × IndexState,
      (docs.foldl ingestStep acc).2.chunks = acc.2.chunks ++ freshChunks docs ∧
      (docs.foldl ingestStep acc).1 = acc.1 + (freshChunks docs).length := by
  induction docs with
  | nil => intro acc; simp [freshChunks]
  | cons d t ih =>
    intro acc
    rw [List.foldl_cons]
    obtain ⟨h1, h2⟩ := ih (ingestStep acc d)
    obtain ⟨g1, g2⟩ := ingestStep_spec acc d
    have hfresh : freshChunks (d :: t) = docChunks d ++ freshChunks t := by
      unfold freshChunks
      simp
    constructor
    · rw [h1, g1, hfresh, List.append_assoc]
    · rw [h2, g2, hfresh]
      simp
      omega

/-- C7 (amended): `clear()` followed by `index_documents_directory` with
`force_reindex = true` leaves the index holding exactly the freshly computed
chunks of the documents present, and returns exactly their count.  With the
default `force_reindex = false` this fails whenever a persisted chunk file
exists, because the stale persisted index is reloaded instead (see the
counterexample `clear_reingest_default_cex`). -/
theorem clear_then_force_reindex (s : SystemState)
    (docs : List (String × Except Unit (List Char))) :
    (index_documents_directory true docs (clearSystem s)).1 =
      (freshChunks docs).length ∧
    (index_documents_directory true docs (clearSystem s)).2.index.chunks =
      freshChunks docs := by
  unfold index_documents_directory
  rw [if_neg (by simp)]
  by_cases hd : docs = []
  · subst hd
    rw [if_pos rfl]
    exact ⟨rfl, rfl⟩
  · rw [if_neg hd]
    obtain ⟨h1, h2⟩ := foldl_ingest_spec docs (0, (clearSystem s).index)
    constructor
    · show (docs.foldl ingestStep (0, (clearSystem s).index)).1 = _
      rw [h2]
      simp
    · show (docs.foldl ingestStep (0, (clearSystem s).index)).2.chunks = _
      rw [h1]
      rfl

theorem splitSentences_Hi : splitSentences "Hi.".data = ["Hi.".data] := by
  unfold splitSentences
  rw [show "Hi.".data = "Hi.".data ++ [] by simp]
  rw [splitSentencesAux_no_space "Hi.".data (by decide) false [] []]
  simp only [splitSentencesAux]
  simp

theorem split_into_chunks_Hi : split_into_chunks "Hi.".data = ["Hi.".data] := by
  unfold split_into_chunks
  rw [splitSentences_Hi]
  decide

/-- C7, counterexample: after `clear()`, calling `index_documents_directory`
with its default `force_reindex = false` while a persisted chunk file exists
reloads the stale persisted chunk "old" instead of the freshly computed
chunk "Hi." of the document actually present. -/
theorem clear_reingest_default_cex :
    (index_documents_directory false c7docs
      (clearSystem ⟨⟨[], []⟩, c7disk⟩)).2.index.chunks = [['o', 'l', 'd']] ∧
    freshChunks c7docs = ["Hi.".data] ∧
    ([['o', 'l', 'd']] : List (List Char)) ≠ ["Hi.".data] := by
  refine ⟨?_, ?_, by decide⟩
  · unfold index_documents_directory
    rw [if_pos ⟨by simp [c7disk, save_index, clearSystem], by simp⟩]
    show (load_index c7disk ⟨[], []⟩).2.chunks = _
    have hrt := save_load_roundtrip ⟨[['o', 'l', 'd']], [⟨"doc.pdf"⟩]⟩ ⟨[], []⟩
      (by decide) (by decide) (by decide)
    unfold c7disk
    rw [hrt]
  · unfold freshChunks c7docs docChunks
    simp
    exact split_into_chunks_Hi

/-! ### C2: graceful degradation of query_knowledge_base -/

theorem fallback_response_ok (gen : List Message → Except Unit String)
    (query : String) (history : List Message)
    (hgen : ∀ msgs, ∃ r, gen msgs = Except.ok r) :
    ∃ r, gen (fallback_messages query history) = Except.ok r ∧
      fallback_response gen query history =
        Except.ok (fallbackPre ++ r ++ fallbackPost) := by
  obtain ⟨r, hr⟩ := hgen (fallback_messages query history)
  refine ⟨r, hr, ?_⟩
  unfold fallback_response
  rw [hr]

theorem fallback_text_ne_empty (r : String) :
    fallbackPre ++ r ++ fallbackPost ≠ "" := by
  intro h
  have hlen := congrArg String.length h
  rw [String.length_append, String.length_append] at hlen
  have hpre : 0 < fallbackPre.length := by decide
  rw [show ("" : String).length = 0 from rfl] at hlen
  omega

/-- C2: given a Generator collaborator whose calls all succeed,
`query_knowledge_base` never raises — it always returns a response; whenever
retrieval returns zero chunks the result is the fallback response, which is
non-empty and carries the fixed disclaimer marker prepended to the generated
answer; and whenever any step of the primary path raises, the result is the
fallback response. -/
theorem query_knowledge_base_spec (gen : List Message → Except Unit String)
    (chunks : List (List Char)) (query : String) (history : List Message)
    (hgen : ∀ msgs, ∃ r, gen msgs = Except.ok r) :
    (∃ r, query_knowledge_base gen chunks query history = Except.ok r) ∧
    (keyword_retrieve query.data RAG_TOP_K chunks = [] →
      ∃ r, gen (fallback_messages query history) = Except.ok r ∧
        query_knowledge_base gen chunks query history =
          Except.ok (fallbackPre ++ r ++ fallbackPost) ∧
        fallbackPre ++ r ++ fallbackPost ≠ "") ∧
    (∀ e, query_primary gen chunks query history = Except.error e →
      query_knowledge_base gen chunks query history =
        fallback_response gen query history) := by
  obtain ⟨r, hr, hfb⟩ := fallback_response_ok gen query history hgen
  refine ⟨?_, ?_, ?_⟩
  · cases hp : query_primary gen chunks query history with
    | ok v =>
      refine ⟨v, ?_⟩
      unfold query_knowledge_base
      rw [hp]
    | error e =>
      refine ⟨fallbackPre ++ r ++ fallbackPost, ?_⟩
      unfold query_knowledge_base
      rw [hp, hfb]
  · intro hempty
    refine ⟨r, hr, ?_, fallback_text_ne_empty r⟩
    have hq : query_primary gen chunks query history =
        Except.ok (fallbackPre ++ r ++ fallbackPost) := by
      unfold query_primary
      rw [if_pos hempty, hfb]
    unfold query_knowledge_base
    rw [hq]
  · intro e hp
    unfold query_knowledge_base
    rw [hp]

/-- C2 witness: the specification instantiated at an always-succeeding
generator, the empty index, and an empty history. -/
theorem query_knowledge_base_spec_witness :
    (∀ msgs, ∃ r, genOk msgs = Except.ok r) ∧
    ((∃ r, query_knowledge_base genOk [] "q" [] = Except.ok r) ∧
    (keyword_retrieve "q".data RAG_TOP_K [] = [] →
      ∃ r, genOk (fallback_messages "q" []) = Except.ok r ∧
        query_knowledge_base genOk [] "q" [] =
          Except.ok (fallbackPre ++ r ++ fallbackPost) ∧
        fallbackPre ++ r ++ fallbackPost ≠ "") ∧
    (∀ e, query_primary genOk [] "q" [] = Except.error e →
      query_knowledge_base genOk [] "q" [] = fallback_response genOk "q" [])) :=
  ⟨fun _ => ⟨"ok", rfl⟩,
    query_knowledge_base_spec genOk [] "q" [] (fun _ => ⟨"ok", rfl⟩)⟩

/-- C10, counterexample: with a 7-message history, the RAG path passes only
the most recent 6 messages to the generator, not the most recent
`MAX_HISTORY_LENGTH` = 10 (here: all 7) messages of the configured window. -/
theorem history_window_cex :
    rag_messages "q" "ctx" c10hist ≠
      { role := "system", content := ragPromptPre ++ "ctx" ++ ragPromptPost } ::
        (lastN MAX_HISTORY_LENGTH c10hist ++
          [{ role := "user", content := "q" }]) := by
  intro h
  have h7 : c10hist.length = 7 := by unfold c10hist; simp
  have hne : c10hist ≠ [] := by
    intro hh
    rw [hh] at h7
    exact absurd h7 (by decide)
  have e1 : (rag_messages "q" "ctx" c10hist).length = 8 := by
    unfold rag_messages
    rw [if_neg hne]
    simp [lastN, h7]
  have e2 : ({ role := "system", content := ragPromptPre ++ "ctx" ++ ragPromptPost } ::
      (lastN MAX_HISTORY_LENGTH c10hist ++
        [{ role := "user", content := "q" }])).length = 9 := by
    simp [lastN, h7, MAX_HISTORY_LENGTH]
  rw [h, e2] at e1
  exact absurd e1 (by decide)

/-- C10 (amended): both the RAG path and the fallback path pass to the
generator exactly the most recent 6 messages of the history — a hardcoded
count, not the configured `MAX_HISTORY_LENGTH` — as a contiguous suffix of
the history in original order, placed between the system message and the
current query message. -/
theorem history_trimming (query context : String) (history : List Message) :
    ∃ kept,
      rag_messages query context history =
        { role := "system", content := ragPromptPre ++ context ++ ragPromptPost } ::
          (kept ++ [{ role := "user", content := query }]) ∧
      fallback_messages query history =
        { role := "system", content := fallbackSystemContent } ::
          (kept ++ [{ role := "user", content := query }]) ∧
      kept <:+ history ∧ kept.length = min 6 history.length := by
  refine ⟨if history = [] then [] else lastN 6 history, ?_, ?_, ?_, ?_⟩
  · unfold rag_messages
    rw [List.cons_append]
  · unfold fallback_messages
    rw [List.cons_append]
  · by_cases hh : history = []
    · rw [if_pos hh]
      exact List.nil_suffix ..
    · rw [if_neg hh]
      exact List.drop_suffix _ _
  · by_cases hh : history = []
    · rw [if_pos hh, hh]
      simp
    · rw [if_neg hh]
      unfold lastN
      rw [List.length_drop]
      omega
